import Mathlib

/-!
Shallow embedding of `iv_metrics.py`: field extraction from loosely
structured option snapshot records, ATM option selection, the local IV
history store, and the IV rank / IV percentile metrics, together with
theorems checking the specification's claims about them.

Finite Python floats are modelled as exact rationals; NaN and the two
infinities are explicit constructors where the code can observe them
(field extraction and strike-distance comparison).
-/

/-- A Python float as this program can observe it: NaN, one of the two
infinities, or a finite value modelled as an exact rational. -/
inductive PyFloat where
  | nan
  | inf
  | ninf
  | fin (q : ℚ)
deriving DecidableEq

/-- `math.isfinite`. -/
def PyFloat.isFinite : PyFloat → Bool
  | .fin _ => true
  | _ => false

/-- Python float subtraction, with the IEEE rules for NaN and infinities. -/
def PyFloat.sub : PyFloat → PyFloat → PyFloat
  | .nan, _ => .nan
  | _, .nan => .nan
  | .inf, .inf => .nan
  | .inf, _ => .inf
  | .ninf, .ninf => .nan
  | .ninf, _ => .ninf
  | .fin _, .inf => .ninf
  | .fin _, .ninf => .inf
  | .fin a, .fin b => .fin (a - b)

/-- Python `abs` on floats. -/
def PyFloat.pabs : PyFloat → PyFloat
  | .nan => .nan
  | .inf => .inf
  | .ninf => .inf
  | .fin q => .fin |q|

/-- Python `<` on floats: every comparison involving NaN is false. -/
def PyFloat.lt : PyFloat → PyFloat → Bool
  | .nan, _ => false
  | _, .nan => false
  | .ninf, .ninf => false
  | .ninf, _ => true
  | .inf, _ => false
  | .fin _, .ninf => false
  | .fin _, .inf => true
  | .fin a, .fin b => decide (a < b)

/-- A loosely typed value from the parsed API response: `None`, a boolean,
a number, a string, or a nested object.  Objects are association lists;
lookup takes the first binding of a key. -/
inductive JVal where
  | vnull
  | vbool (b : Bool)
  | vnum (f : PyFloat)
  | vstr (s : String)
  | vobj (fields : List (String × JVal))

/-- Python truthiness (`bool(v)`) of the values above.  `None`, `False`,
zero, the empty string and the empty object are falsy; NaN and the
infinities are truthy. -/
def JVal.truthy : JVal → Bool
  | .vnull => false
  | .vbool b => b
  | .vnum (.fin q) => decide (q ≠ 0)
  | .vnum _ => true
  | .vstr s => decide (s ≠ "")
  | .vobj fs => !fs.isEmpty

/-- A snapshot record: a top-level dictionary of string keys. -/
abbrev Rec := List (String × JVal)

/-- `d.get(k)`: the value stored at key `k`, or `None` when the key is
absent (a stored `None` and a missing key are indistinguishable to every
consumer in the source, so both are `vnull`). -/
def recGet (d : Rec) (k : String) : JVal :=
  match d.find? (fun p => decide (p.1 = k)) with
  | some p => p.2
  | none => .vnull

/-- `_safe_get`: follow a key path through nested dictionaries, returning
`None` as soon as the current value is not a dictionary containing the
next key. -/
def safeGet : JVal → List String → JVal
  | v, [] => v
  | .vobj fs, k :: ks =>
      match fs.find? (fun p => decide (p.1 = k)) with
      | some p => safeGet p.2 ks
      | none => .vnull
  | _, _ :: _ => .vnull

/-- `_safe_get` applied to a top-level record. -/
def safeGetRec (d : Rec) (path : List String) : JVal :=
  safeGet (.vobj d) path

/-- Python `a or b or ...`: the first truthy operand, otherwise the value
of the last operand. -/
def pyOr (v : JVal) : List JVal → JVal
  | [] => v
  | w :: ws => if v.truthy then v else pyOr w ws

/-- The numeric value of a list of decimal digit characters. -/
def digitsVal (cs : List Char) : ℕ :=
  cs.foldl (fun n c => 10 * n + (c.toNat - 48)) 0

/-- Split a character list at the first occurrence of `c`; the second
component is `none` when `c` does not occur. -/
def splitOnChar (c : Char) : List Char → List Char × Option (List Char)
  | [] => ([], none)
  | x :: xs =>
    if x = c then ([], some xs)
    else
      let r := splitOnChar c xs
      (x :: r.1, r.2)

/-- The body of a decimal float literal (sign already removed):
`digits [. digits] [e [sign] digits]` with at least one digit in the
mantissa.  Models the ordinary-literal grammar of CPython `float(str)`. -/
def parseUnsignedDecimal (cs : List Char) : Option ℚ :=
  let mant := splitOnChar 'e' cs
  let ipfp := splitOnChar '.' mant.1
  let ip := ipfp.1
  let fp := (ipfp.2).getD []
  if ¬ ip.all Char.isDigit ∨ ¬ fp.all Char.isDigit ∨ (ip = [] ∧ fp = []) then
    none
  else
    let base : ℚ := (digitsVal ip : ℚ) + (digitsVal fp : ℚ) / (10 ^ fp.length)
    match mant.2 with
    | none => some base
    | some es =>
      let se :=
        match es with
        | '+' :: rest => (false, rest)
        | '-' :: rest => (true, rest)
        | _ => (false, es)
      if se.2 = [] ∨ ¬ (se.2).all Char.isDigit then none
      else
        let e := digitsVal se.2
        some (if se.1 then base / 10 ^ e else base * 10 ^ e)

/-- Python `float(s)` on a string: strip whitespace, then a case-insensitive
`inf`/`infinity`/`nan` with optional sign, or a decimal literal.  `none`
models a raised `ValueError`. -/
def strToFloat (s : String) : Option PyFloat :=
  let t := (s.trim.toLower).data
  let sb :=
    match t with
    | '+' :: rest => (false, rest)
    | '-' :: rest => (true, rest)
    | _ => (false, t)
  if sb.2 = "inf".data ∨ sb.2 = "infinity".data then
    some (if sb.1 then .ninf else .inf)
  else if sb.2 = "nan".data then some .nan
  else
    match parseUnsignedDecimal sb.2 with
    | some q => some (.fin (if sb.1 then -q else q))
    | none => none

/-- Python `float(v)`: numbers pass through, booleans become 0 and 1,
strings are parsed; every other argument raises (modelled as `none`). -/
def pyFloat? : JVal → Option PyFloat
  | .vnum f => some f
  | .vbool b => some (.fin (if b then 1 else 0))
  | .vstr s => strToFloat s
  | _ => none

/-- `_extract_option_ticker`: the raw result of the `or`-chain over the
candidate identifier locations (the caller tests it for truthiness). -/
def extract_option_ticker (item : Rec) : JVal :=
  pyOr (recGet item "ticker")
    [safeGetRec item ["details", "ticker"], safeGetRec item ["symbol"]]

/-- `_extract_strike`: the `or`-chain picks the first truthy candidate;
`float` is applied to that value only, any conversion failure giving
`none`. -/
def extract_strike (item : Rec) : Option PyFloat :=
  let strike := pyOr (recGet item "strike_price")
    [recGet item "strike",
     safeGetRec item ["details", "strike_price"],
     safeGetRec item ["details", "strike"]]
  match strike with
  | .vnull => none
  | v => pyFloat? v

/-- Days per month in the Gregorian calendar. -/
def daysInMonth (y m : ℕ) : ℕ :=
  if m = 2 then (if (y % 4 = 0 ∧ y % 100 ≠ 0) ∨ y % 400 = 0 then 29 else 28)
  else if m = 4 ∨ m = 6 ∨ m = 9 ∨ m = 11 then 30
  else 31

/-- `_parse_date` (`strptime "%Y-%m-%d"`) for zero-padded ISO dates
`YYYY-MM-DD`; a valid date is encoded as `y*10000 + m*100 + d`, an
order-isomorphic encoding of calendar dates. -/
def parse_date (s : String) : Option ℕ :=
  match s.data with
  | [y1, y2, y3, y4, h1, m1, m2, h2, d1, d2] =>
    if ([y1, y2, y3, y4, m1, m2, d1, d2]).all Char.isDigit ∧ h1 = '-' ∧ h2 = '-' then
      let y := digitsVal [y1, y2, y3, y4]
      let m := digitsVal [m1, m2]
      let d := digitsVal [d1, d2]
      if 1 ≤ m ∧ m ≤ 12 ∧ 1 ≤ d ∧ d ≤ daysInMonth y m then
        some (y * 10000 + m * 100 + d)
      else none
    else none
  | _ => none

/-- `str(v)[:10]` for the values reaching `_extract_expiration`.  Only a
string can carry an ISO date in its first ten characters; the Python
`str` forms of the other values never match `%Y-%m-%d`, so they are
abbreviated here by stand-ins that never parse as dates. -/
def pyStr10 : JVal → String
  | .vstr s => ⟨s.data.take 10⟩
  | .vnull => "None"
  | .vbool true => "True"
  | .vbool false => "False"
  | .vnum _ => "<number>"
  | .vobj _ => "<object>"

/-- `_extract_expiration`: first truthy candidate, then `_parse_date` on
the first ten characters of its string form; any failure gives `none`. -/
def extract_expiration (item : Rec) : Option ℕ :=
  let exp := pyOr (recGet item "expiration_date")
    [recGet item "expires_at", safeGetRec item ["details", "expiration_date"]]
  if exp.truthy then parse_date (pyStr10 exp) else none

/-- The candidate locations `_extract_iv` inspects, in order. -/
def ivCandidates (item : Rec) : List JVal :=
  [recGet item "implied_volatility",
   recGet item "iv",
   safeGetRec item ["greeks", "implied_volatility"],
   safeGetRec item ["day", "implied_volatility"],
   safeGetRec item ["last_quote", "implied_volatility"],
   safeGetRec item ["details", "implied_volatility"]]

/-- Python `v is None`. -/
def JVal.isNull : JVal → Bool
  | .vnull => true
  | _ => false

/-- The scan inside `_extract_iv`: the first candidate that is not `None`,
converts to a float, and is finite; all other candidates are skipped. -/
def ivScan : List JVal → Option PyFloat
  | [] => none
  | v :: vs =>
    if v.isNull then ivScan vs
    else
      match pyFloat? v with
      | none => ivScan vs
      | some f => if f.isFinite then some f else ivScan vs

/-- `_extract_iv`. -/
def extract_iv (item : Rec) : Option PyFloat :=
  ivScan (ivCandidates item)

/-- The record chosen per contract type (`OptionPick` in the source).  The
identifier is kept as the raw extracted value, as the source does. -/
structure OptionPick where
  ticker : JVal
  strike : PyFloat
  contract_type : String
  expiration_date : ℕ
  iv : Option PyFloat

/-- One iteration of the selection loop of `pick_atm_option`: skip items
without an extractable strike, otherwise replace the running best
`(delta, item)` pair only on strictly smaller distance. -/
def pickStep (underlying_price : PyFloat) (best : Option (PyFloat × Rec))
    (it : Rec) : Option (PyFloat × Rec) :=
  match extract_strike it with
  | none => best
  | some strike =>
    let delta := (strike.sub underlying_price).pabs
    match best with
    | none => some (delta, it)
    | some b => if delta.lt b.1 then some (delta, it) else best

/-- The selection loop of `pick_atm_option`. -/
def pickBest (snapshot_items : List Rec) (underlying_price : PyFloat) :
    Option (PyFloat × Rec) :=
  snapshot_items.foldl (pickStep underlying_price) none

/-- The `OptionPick` that `pick_atm_option` builds from the winning record:
identifier, re-extracted strike (`nan` when absent) and extracted IV. -/
def mkPick (it : Rec) (contract_type : String) (expiration : ℕ) : OptionPick :=
  { ticker := extract_option_ticker it
    strike := match extract_strike it with
              | some f => f
              | none => .nan
    contract_type := contract_type
    expiration_date := expiration
    iv := extract_iv it }

/-- `pick_atm_option`: run the selection loop, then require a truthy
identifier on the winning record; everything else of the pick is rebuilt
from that record by re-extraction exactly as the source does. -/
def pick_atm_option (snapshot_items : List Rec) (contract_type : String)
    (expiration : ℕ) (underlying_price : PyFloat) : Option OptionPick :=
  match pickBest snapshot_items underlying_price with
  | none => none
  | some b =>
    let it := b.2
    let tk := extract_option_ticker it
    if tk.truthy then some (mkPick it contract_type expiration)
    else none

/-- `compute_iv_rank_and_percentile`.  History is a list of `(date, iv)`
pairs (dates in the order-isomorphic `ℕ` encoding); IV values are exact
rationals. -/
def compute_iv_rank_and_percentile (history : List (ℕ × ℚ)) (current_iv : ℚ) :
    Option ℚ × Option ℚ :=
  match history with
  | [] => (none, none)
  | x :: xs =>
    let ivs := (x :: xs).map Prod.snd
    let lo := xs.foldl (fun a p => min a p.2) x.2
    let hi := xs.foldl (fun a p => max a p.2) x.2
    let rank := if lo < hi then some ((current_iv - lo) / (hi - lo)) else none
    let pct : ℚ := ((ivs.countP fun v => decide (v ≤ current_iv)) : ℚ) / (ivs.length : ℚ)
    (rank, some pct)

/-- One raw data row of a per-ticker history CSV: the `date` field as the
raw string and the result of `float(row["iv"])` (`none` when that text
does not parse as a float; parsed values are exact rationals). -/
structure RawRow where
  date : String
  iv : Option ℚ
deriving DecidableEq

/-- The per-ticker history file: `none` when the file does not exist,
otherwise its data rows. -/
abbrev HistoryFile := Option (List RawRow)

/-- The row parse inside `load_local_history`: both the date and the IV
must parse, otherwise the row is skipped. -/
def parseRow (r : RawRow) : Option (ℕ × ℚ) :=
  match parse_date r.date, r.iv with
  | some d, some iv => some (d, iv)
  | _, _ => none

/-- Python list slice `l[start:]` for an arbitrary integer `start`. -/
def pySliceFrom (l : List α) (start : ℤ) : List α :=
  if start < 0 then l.drop (l.length - (-start).toNat)
  else l.drop start.toNat

/-- `load_local_history`: missing file gives an empty series; otherwise
parse the rows (skipping malformed ones), sort ascending by date, and take
the slice `rows[-lookback:]`. -/
def load_local_history (file : HistoryFile) (lookback : ℤ) : List (ℕ × ℚ) :=
  match file with
  | none => []
  | some rows =>
    let parsed := rows.filterMap parseRow
    let sorted := parsed.mergeSort (fun a b => decide (a.1 ≤ b.1))
    pySliceFrom sorted (-lookback)

/-- `existing[k] = v` on a Python dictionary, modelled as an association
list with distinct keys in insertion order. -/
def dictSet (m : List (String × ℚ)) (k : String) (v : ℚ) : List (String × ℚ) :=
  if m.any (fun p => decide (p.1 = k)) then
    m.map (fun p => if p.1 = k then (k, v) else p)
  else m ++ [(k, v)]

/-- One row of the read-existing loop of `append_local_history`: rows whose
IV fails to parse are skipped, the others upsert under their raw date
string. -/
def readStep (m : List (String × ℚ)) (r : RawRow) : List (String × ℚ) :=
  match r.iv with
  | some v => dictSet m r.date v
  | none => m

/-- The read-existing loop of `append_local_history`: build the date-keyed
dictionary from the current rows (the raw date string is the key, parsed
or not). -/
def readExisting (rows : List RawRow) : List (String × ℚ) :=
  rows.foldl readStep []

/-- One written CSV data row for a dictionary entry. -/
def toRow (p : String × ℚ) : RawRow := ⟨p.1, some p.2⟩

/-- `append_local_history`: read the existing rows into a date-keyed
dictionary, upsert the new observation under `date.isoformat()` (the
`date_iso` parameter; `isoformat` is injective on dates), and write all
entries back sorted by key. -/
def append_local_history (file : HistoryFile) (date_iso : String) (iv : ℚ) :
    List RawRow :=
  let existing := readExisting (file.getD [])
  let merged := dictSet existing date_iso iv
  (merged.mergeSort (fun a b => decide (a.1 ≤ b.1))).map toRow

/-- Lines 372-381 of `main`: load the history, append today's IV unless
history writing is disabled (write failures only change the file, never
the metrics), and compute the metrics from the loaded history value. -/
def run_metrics_step (file : HistoryFile) (lookback : ℤ)
    (write_history : Bool) (today_iso : String) (current_iv : ℚ) :
    (Option ℚ × Option ℚ) × HistoryFile :=
  let history := load_local_history file lookback
  let file' :=
    if write_history then some (append_local_history file today_iso current_iv)
    else file
  let metrics := compute_iv_rank_and_percentile history current_iv
  (metrics, file')

/-! ### Helper lemmas about the metric computation -/

lemma foldl_min_map (a : ℚ) (xs : List (ℕ × ℚ)) :
    xs.foldl (fun b p => min b p.2) a = (xs.map Prod.snd).foldl min a := by
  induction xs generalizing a with
  | nil => rfl
  | cons y ys ih => simpa using ih (min a y.2)

lemma foldl_max_map (a : ℚ) (xs : List (ℕ × ℚ)) :
    xs.foldl (fun b p => max b p.2) a = (xs.map Prod.snd).foldl max a := by
  induction xs generalizing a with
  | nil => rfl
  | cons y ys ih => simpa using ih (max a y.2)

lemma foldl_min_le_init (l : List ℚ) (a : ℚ) : l.foldl min a ≤ a := by
  induction l generalizing a with
  | nil => exact le_refl a
  | cons x xs ih => exact le_trans (ih (min a x)) (min_le_left a x)

lemma init_le_foldl_max (l : List ℚ) (a : ℚ) : a ≤ l.foldl max a := by
  induction l generalizing a with
  | nil => exact le_refl a
  | cons x xs ih => exact le_trans (le_max_left a x) (ih (max a x))

lemma compute_fst_cons (x : ℕ × ℚ) (xs : List (ℕ × ℚ)) (c : ℚ) :
    (compute_iv_rank_and_percentile (x :: xs) c).1 =
      (if xs.foldl (fun b p => min b p.2) x.2 < xs.foldl (fun b p => max b p.2) x.2
       then some ((c - xs.foldl (fun b p => min b p.2) x.2) /
         (xs.foldl (fun b p => max b p.2) x.2 - xs.foldl (fun b p => min b p.2) x.2))
       else none) := rfl

lemma compute_snd_cons (x : ℕ × ℚ) (xs : List (ℕ × ℚ)) (c : ℚ) :
    (compute_iv_rank_and_percentile (x :: xs) c).2 =
      some (((((x :: xs).map Prod.snd).countP fun v => decide (v ≤ c)) : ℚ) /
        (((x :: xs).map Prod.snd).length : ℚ)) := rfl


lemma pair_foldl_min_le_max (x : ℕ × ℚ) (xs : List (ℕ × ℚ)) :
    xs.foldl (fun b p => min b p.2) x.2 ≤ xs.foldl (fun b p => max b p.2) x.2 := by
  rw [foldl_min_map, foldl_max_map]
  exact le_trans (foldl_min_le_init _ _) (init_le_foldl_max _ _)

lemma min?_map_cons (x : ℕ × ℚ) (xs : List (ℕ × ℚ)) :
    ((x :: xs).map Prod.snd).min? =
      some (xs.foldl (fun b p => min b p.2) x.2) := by
  rw [foldl_min_map]; rfl

lemma max?_map_cons (x : ℕ × ℚ) (xs : List (ℕ × ℚ)) :
    ((x :: xs).map Prod.snd).max? =
      some (xs.foldl (fun b p => max b p.2) x.2) := by
  rw [foldl_max_map]; rfl

/-! ### Claims C1, C2, C3 about the Metrics Engine -/

/-- C1: the rank output of `compute_iv_rank_and_percentile` is unavailable
exactly when the history is empty or its maximum equals its minimum;
otherwise it equals `(c - min) / (max - min)` with no clamping, so it can
exceed 1 when the current value is outside the observed range. -/
theorem rank_minmax_formula (H : List (ℕ × ℚ)) (c : ℚ) :
    ((compute_iv_rank_and_percentile H c).1 = none ↔
      H = [] ∨ (H.map Prod.snd).min? = (H.map Prod.snd).max?) ∧
    (∀ lo hi, (H.map Prod.snd).min? = some lo →
      (H.map Prod.snd).max? = some hi → lo ≠ hi →
      (compute_iv_rank_and_percentile H c).1 = some ((c - lo) / (hi - lo))) ∧
    (∃ r, (compute_iv_rank_and_percentile [(0, 1), (1, 2)] 3).1 = some r ∧ 1 < r) := by
  refine ⟨?_, ?_, ⟨2, by simp [compute_iv_rank_and_percentile, min_def, max_def]; norm_num,
    by norm_num⟩⟩
  · cases H with
    | nil => simp [compute_iv_rank_and_percentile]
    | cons x xs =>
      rw [compute_fst_cons, min?_map_cons, max?_map_cons]
      by_cases h : xs.foldl (fun b p => min b p.2) x.2 <
          xs.foldl (fun b p => max b p.2) x.2
      · rw [if_pos h]
        constructor
        · intro hc; exact Option.noConfusion hc
        · rintro (hc | hc)
          · exact List.noConfusion hc
          · exact absurd (Option.some.inj hc) (ne_of_lt h)
      · rw [if_neg h]
        constructor
        · intro _
          exact Or.inr (congrArg some
            (le_antisymm (pair_foldl_min_le_max x xs) (not_lt.mp h)))
        · intro _; rfl
  · intro lo hi hlo hhi hne
    cases H with
    | nil => exact Option.noConfusion hlo
    | cons x xs =>
      rw [min?_map_cons] at hlo
      rw [max?_map_cons] at hhi
      have hlo' := Option.some.inj hlo
      have hhi' := Option.some.inj hhi
      subst hlo'
      subst hhi'
      have hlt : xs.foldl (fun b p => min b p.2) x.2 <
          xs.foldl (fun b p => max b p.2) x.2 :=
        lt_of_le_of_ne (pair_foldl_min_le_max x xs) hne
      rw [compute_fst_cons, if_pos hlt]

/-- C1 witness: on a concrete non-flat history the rank formula applies with
min 1 and max 2. -/
theorem rank_minmax_formula_witness :
    (compute_iv_rank_and_percentile [(0, 1), (1, 2)] (3/2)).1 =
      some (((3/2 : ℚ) - 1) / (2 - 1)) :=
  (rank_minmax_formula [(0, 1), (1, 2)] (3/2)).2.1 1 2
    (by simp [min_def]) (by simp [max_def]) (by norm_num)

/-- C2: for non-empty history the percentile is always present and equals
`(count of values ≤ current) / |H|`; the documented example gives `2/3`;
for empty history both outputs are unavailable. -/
theorem percentile_empirical_cdf :
    (∀ (H : List (ℕ × ℚ)) (c : ℚ), H ≠ [] →
      (compute_iv_rank_and_percentile H c).2 =
        some ((((H.map Prod.snd).countP fun v => decide (v ≤ c)) : ℚ) /
          (H.length : ℚ))) ∧
    (∀ c : ℚ, compute_iv_rank_and_percentile [] c = (none, none)) ∧
    (compute_iv_rank_and_percentile [(0, 1/5), (1, 3/10), (2, 2/5)] (3/10)).2 =
      some (2/3) := by
  refine ⟨?_, fun _ => rfl, ?_⟩
  · intro H c hne
    cases H with
    | nil => exact absurd rfl hne
    | cons x xs => rw [compute_snd_cons, List.length_map]
  · simp [compute_iv_rank_and_percentile, List.countP, List.countP.go]
    norm_num

/-- C2 witness: the percentile formula applied to a concrete one-element
history. -/
theorem percentile_empirical_cdf_witness :
    (compute_iv_rank_and_percentile [(0, 1)] 1).2 = some ((1 : ℚ) / 1) :=
  percentile_empirical_cdf.1 [(0, 1)] 1 (by simp)

/-- C3 counterexample: on history with IVs `{1/10, 1/5}` and current value
`1`, the rank is present and equals `9`, which is outside `[0, 1]`. -/
theorem present_rank_exceeds_unit_cex :
    (compute_iv_rank_and_percentile [(0, 1/10), (1, 1/5)] 1).1 = some 9 ∧
      ¬ ((9 : ℚ) ≤ 1) := by
  constructor
  · simp [compute_iv_rank_and_percentile, min_def, max_def]
    norm_num
  · norm_num

/-- A present rank, with the history minimum `lo` and maximum `hi`, lies in
`[0, 1]` exactly when the current value lies in `[lo, hi]`. -/
lemma present_rank_unit_iff (H : List (ℕ × ℚ)) (c r lo hi : ℚ)
    (hlo : (H.map Prod.snd).min? = some lo)
    (hhi : (H.map Prod.snd).max? = some hi)
    (hr : (compute_iv_rank_and_percentile H c).1 = some r) :
    (0 ≤ r ∧ r ≤ 1) ↔ (lo ≤ c ∧ c ≤ hi) := by
  cases H with
  | nil => exact Option.noConfusion hlo
  | cons x xs =>
    rw [min?_map_cons] at hlo
    rw [max?_map_cons] at hhi
    have hlo' := Option.some.inj hlo
    have hhi' := Option.some.inj hhi
    subst hlo'
    subst hhi'
    rw [compute_fst_cons] at hr
    by_cases h : xs.foldl (fun b p => min b p.2) x.2 <
        xs.foldl (fun b p => max b p.2) x.2
    · rw [if_pos h] at hr
      have hr' := Option.some.inj hr
      subst hr'
      have hpos : (0 : ℚ) <
          xs.foldl (fun b p => max b p.2) x.2 -
            xs.foldl (fun b p => min b p.2) x.2 := sub_pos.mpr h
      have h1 : 0 ≤ (c - xs.foldl (fun b p => min b p.2) x.2) /
          (xs.foldl (fun b p => max b p.2) x.2 -
            xs.foldl (fun b p => min b p.2) x.2) ↔
          xs.foldl (fun b p => min b p.2) x.2 ≤ c := by
        rw [le_div_iff₀ hpos, zero_mul, sub_nonneg]
      have h2 : (c - xs.foldl (fun b p => min b p.2) x.2) /
          (xs.foldl (fun b p => max b p.2) x.2 -
            xs.foldl (fun b p => min b p.2) x.2) ≤ 1 ↔
          c ≤ xs.foldl (fun b p => max b p.2) x.2 := by
        rw [div_le_one hpos, sub_le_sub_iff_right]
      exact and_congr h1 h2
    · rw [if_neg h] at hr
      exact Option.noConfusion hr

/-- C3 amended: a present percentile always lies in `[0, 1]`; a present
rank lies in `[0, 1]` exactly when the current value lies between the
history minimum and maximum — the rank is unclamped, so it leaves `[0, 1]`
precisely when the current value is outside the observed range. -/
theorem present_metrics_unit_bounds (H : List (ℕ × ℚ)) (c : ℚ) :
    (∀ p, (compute_iv_rank_and_percentile H c).2 = some p → 0 ≤ p ∧ p ≤ 1) ∧
    (∀ r lo hi, (H.map Prod.snd).min? = some lo →
      (H.map Prod.snd).max? = some hi → lo ≤ c → c ≤ hi →
      (compute_iv_rank_and_percentile H c).1 = some r → 0 ≤ r ∧ r ≤ 1) ∧
    (∀ r lo hi, (H.map Prod.snd).min? = some lo →
      (H.map Prod.snd).max? = some hi →
      (compute_iv_rank_and_percentile H c).1 = some r →
      ((0 ≤ r ∧ r ≤ 1) ↔ (lo ≤ c ∧ c ≤ hi))) := by
  refine ⟨?_, ?_, ?_⟩
  · intro p hp
    cases H with
    | nil => exact Option.noConfusion hp
    | cons x xs =>
      rw [compute_snd_cons] at hp
      have hp' := Option.some.inj hp
      subst hp'
      have hlen : (0 : ℚ) < (((x :: xs).map Prod.snd).length : ℚ) := by
        simp
        positivity
      constructor
      · exact div_nonneg (by positivity) (le_of_lt hlen)
      · rw [div_le_one hlen]
        exact_mod_cast List.countP_le_length _
  · intro r lo hi hlo hhi hcl hch hr
    exact (present_rank_unit_iff H c r lo hi hlo hhi hr).mpr ⟨hcl, hch⟩
  · intro r lo hi hlo hhi hr
    exact present_rank_unit_iff H c r lo hi hlo hhi hr

/-- C3 amended witness: concrete in-range inputs where both present outputs
are in `[0, 1]`, and the rank-membership equivalence at those inputs. -/
theorem present_metrics_unit_bounds_witness :
    (0 ≤ (1/2 : ℚ) ∧ (1/2 : ℚ) ≤ 1) ∧ (0 ≤ (1/2 : ℚ) ∧ (1/2 : ℚ) ≤ 1) ∧
    ((0 ≤ (1/2 : ℚ) ∧ (1/2 : ℚ) ≤ 1) ↔ ((0 : ℚ) ≤ 1/2 ∧ (1/2 : ℚ) ≤ 1)) :=
  ⟨(present_metrics_unit_bounds [(0, 0), (1, 1)] (1/2)).1 (1/2)
      (by norm_num [compute_iv_rank_and_percentile, List.countP, List.countP.go]),
   (present_metrics_unit_bounds [(0, 0), (1, 1)] (1/2)).2.1 (1/2) 0 1
      (by simp [min_def]) (by simp [max_def]) (by norm_num) (by norm_num)
      (by norm_num [compute_iv_rank_and_percentile, min_def, max_def]),
   (present_metrics_unit_bounds [(0, 0), (1, 1)] (1/2)).2.2 (1/2) 0 1
      (by simp [min_def]) (by simp [max_def])
      (by norm_num [compute_iv_rank_and_percentile, min_def, max_def])⟩

/-- C5: the metrics step of `main` computes rank and percentile from the
history as loaded before any write; the flag controlling history writing
never changes the metrics, only the resulting file. -/
theorem metrics_use_prewrite_history (file : HistoryFile) (lookback : ℤ)
    (w w' : Bool) (today_iso : String) (current_iv : ℚ) :
    (run_metrics_step file lookback w today_iso current_iv).1 =
      compute_iv_rank_and_percentile (load_local_history file lookback)
        current_iv ∧
    (run_metrics_step file lookback w today_iso current_iv).1 =
      (run_metrics_step file lookback w' today_iso current_iv).1 :=
  ⟨rfl, rfl⟩

/-! ### First-minimizer machinery for the ATM selector -/

/-- The items that carry an extractable finite strike, paired with their
absolute distance to the reference price. -/
def strikeCands (items : List Rec) (price : ℚ) : List (ℚ × Rec) :=
  items.filterMap fun it =>
    match extract_strike it with
    | some (.fin s) => some (|s - price|, it)
    | _ => none

/-- The specification's reading of ATM selection: among the records with an
extractable strike, the first one in input order whose distance to the
reference price is minimal. -/
def atmSpec (items : List Rec) (price : ℚ) : Option Rec :=
  let cand := strikeCands items price
  (cand.find? fun c => cand.all fun c2 => decide (c.1 ≤ c2.1)).map Prod.snd

/-- Recursive first-minimizer of a distance-tagged candidate list: ties go
to the earlier candidate. -/
def firstMinRec : List (ℚ × Rec) → Option (ℚ × Rec)
  | [] => none
  | c :: cs =>
    match firstMinRec cs with
    | none => some c
    | some m => if c.1 ≤ m.1 then some c else some m

/-- The rational-valued version of the selection fold of `pick_atm_option`. -/
def bestFoldQ (acc : Option (ℚ × Rec)) (l : List (ℚ × Rec)) : Option (ℚ × Rec) :=
  l.foldl
    (fun b c =>
      match b with
      | none => some c
      | some b0 => if c.1 < b0.1 then some c else some b0)
    acc

lemma find?_congr_mem {α : Type} (l : List α) (p q : α → Bool)
    (h : ∀ x ∈ l, p x = q x) : l.find? p = l.find? q := by
  induction l with
  | nil => rfl
  | cons a as ih =>
    rw [List.find?_cons, List.find?_cons, h a (List.mem_cons_self a as)]
    cases hq : q a with
    | true => rfl
    | false => exact ih fun x hx => h x (List.mem_cons_of_mem a hx)

lemma firstMinRec_eq_none_iff (l : List (ℚ × Rec)) :
    firstMinRec l = none ↔ l = [] := by
  cases l with
  | nil => simp [firstMinRec]
  | cons c cs =>
    simp only [firstMinRec]
    cases hfm : firstMinRec cs with
    | none => simp
    | some m =>
      show (if c.1 ≤ m.1 then some c else some m) = none ↔ c :: cs = []
      split_ifs <;> simp

lemma firstMinRec_min (l : List (ℚ × Rec)) (m : ℚ × Rec)
    (hm : firstMinRec l = some m) : ∀ x ∈ l, m.1 ≤ x.1 := by
  induction l generalizing m with
  | nil => exact Option.noConfusion hm
  | cons c cs ih =>
    intro x hx
    rw [firstMinRec] at hm
    cases hfm : firstMinRec cs with
    | none =>
      have hcs : cs = [] := (firstMinRec_eq_none_iff cs).mp hfm
      simp only [hfm] at hm
      subst hcs
      rcases List.mem_cons.mp hx with hx | hx
      · rw [← Option.some.inj hm, hx]
      · exact absurd hx (List.not_mem_nil x)
    | some m0 =>
      simp only [hfm] at hm
      by_cases hc : c.1 ≤ m0.1
      · rw [if_pos hc] at hm
        have hmc := Option.some.inj hm
        subst hmc
        rcases List.mem_cons.mp hx with hx | hx
        · rw [hx]
        · exact le_trans hc (ih m0 hfm x hx)
      · rw [if_neg hc] at hm
        have hmc := Option.some.inj hm
        subst hmc
        rcases List.mem_cons.mp hx with hx | hx
        · rw [hx]; exact le_of_not_le hc
        · exact ih _ hfm x hx

lemma firstMinRec_mem (l : List (ℚ × Rec)) (m : ℚ × Rec)
    (hm : firstMinRec l = some m) : m ∈ l := by
  induction l generalizing m with
  | nil => exact Option.noConfusion hm
  | cons c cs ih =>
    rw [firstMinRec] at hm
    cases hfm : firstMinRec cs with
    | none =>
      simp only [hfm] at hm
      exact (Option.some.inj hm) ▸ List.mem_cons_self c cs
    | some m0 =>
      simp only [hfm] at hm
      by_cases hc : c.1 ≤ m0.1
      · rw [if_pos hc] at hm
        exact (Option.some.inj hm) ▸ List.mem_cons_self c cs
      · rw [if_neg hc] at hm
        exact (Option.some.inj hm) ▸ List.mem_cons_of_mem c (ih m0 hfm)

/-- One comparison step against an already-found minimizer: the running
best `b` is replaced only by a strictly smaller candidate. -/
def keepBetter (b : ℚ × Rec) : Option (ℚ × Rec) → Option (ℚ × Rec)
  | none => some b
  | some m => if m.1 < b.1 then some m else some b

lemma bestFoldQ_some (l : List (ℚ × Rec)) (b : ℚ × Rec) :
    bestFoldQ (some b) l = keepBetter b (firstMinRec l) := by
  induction l generalizing b with
  | nil => rfl
  | cons c cs ih =>
    show bestFoldQ (if c.1 < b.1 then some c else some b) cs =
      keepBetter b (firstMinRec (c :: cs))
    by_cases hcb : c.1 < b.1
    · rw [if_pos hcb, ih c]
      cases hfm : firstMinRec cs with
      | none =>
        simp only [firstMinRec, hfm, keepBetter, if_pos hcb]
      | some m =>
        simp only [firstMinRec, hfm, keepBetter]
        by_cases hcm : c.1 ≤ m.1
        · rw [if_neg (not_lt.mpr hcm), if_pos hcm]
          simp only [keepBetter, if_pos hcb]
        · rw [if_pos (not_le.mp hcm), if_neg hcm]
          simp only [keepBetter, if_pos (lt_trans (not_le.mp hcm) hcb)]
    · rw [if_neg hcb, ih b]
      cases hfm : firstMinRec cs with
      | none =>
        have hcs : cs = [] := (firstMinRec_eq_none_iff cs).mp hfm
        subst hcs
        simp only [firstMinRec, keepBetter, if_neg hcb]
      | some m =>
        simp only [firstMinRec, hfm, keepBetter]
        by_cases hcm : c.1 ≤ m.1
        · rw [if_neg (not_lt.mpr (le_trans (not_lt.mp hcb) hcm)), if_pos hcm]
          simp only [keepBetter, if_neg hcb]
        · rw [if_neg hcm]

lemma bestFoldQ_none (l : List (ℚ × Rec)) :
    bestFoldQ none l = firstMinRec l := by
  cases l with
  | nil => rfl
  | cons c cs =>
    show bestFoldQ (some c) cs = firstMinRec (c :: cs)
    rw [bestFoldQ_some]
    cases hfm : firstMinRec cs with
    | none => simp only [firstMinRec, hfm, keepBetter]
    | some m =>
      simp only [firstMinRec, hfm, keepBetter]
      by_cases hcm : c.1 ≤ m.1
      · rw [if_neg (not_lt.mpr hcm), if_pos hcm]
      · rw [if_pos (not_le.mp hcm), if_neg hcm]

lemma firstMinRec_eq_find? (l : List (ℚ × Rec)) :
    firstMinRec l = l.find? fun c => l.all fun c2 => decide (c.1 ≤ c2.1) := by
  induction l with
  | nil => rfl
  | cons c cs ih =>
    cases hfm : firstMinRec cs with
    | none =>
      have hcs : cs = [] := (firstMinRec_eq_none_iff cs).mp hfm
      subst hcs
      simp [firstMinRec, List.find?]
    | some m =>
      have hmem := firstMinRec_mem cs m hfm
      have hmin := firstMinRec_min cs m hfm
      simp only [firstMinRec, hfm]
      by_cases hcm : c.1 ≤ m.1
      · rw [if_pos hcm]
        symm
        apply List.find?_cons_of_pos
        show ((c :: cs).all fun c2 => decide (c.1 ≤ c2.1)) = true
        rw [List.all_eq_true]
        intro c2 hc2
        rcases List.mem_cons.mp hc2 with h | h
        · rw [h]; exact decide_eq_true (le_refl c.1)
        · exact decide_eq_true (le_trans hcm (hmin c2 h))
      · rw [if_neg hcm]
        have hstep :
            List.find? (fun x => (c :: cs).all fun c2 => decide (x.1 ≤ c2.1)) (c :: cs) =
            List.find? (fun x => (c :: cs).all fun c2 => decide (x.1 ≤ c2.1)) cs := by
          apply List.find?_cons_of_neg
          show ¬ ((c :: cs).all fun c2 => decide (c.1 ≤ c2.1)) = true
          rw [List.all_eq_true]
          intro hall
          exact hcm (of_decide_eq_true (hall m (List.mem_cons_of_mem c hmem)))
        have hcong :
            List.find? (fun x => (c :: cs).all fun c2 => decide (x.1 ≤ c2.1)) cs =
            List.find? (fun x => cs.all fun c2 => decide (x.1 ≤ c2.1)) cs := by
          apply find?_congr_mem
          intro x hx
          cases hq : cs.all fun c2 => decide (x.1 ≤ c2.1) with
          | true =>
            have hxm : x.1 ≤ m.1 := by
              rw [List.all_eq_true] at hq
              exact of_decide_eq_true (hq m hmem)
            have hxc : x.1 ≤ c.1 := le_trans hxm (le_of_not_le hcm)
            simp only [List.all_cons, hq, Bool.and_true]
            simpa using hxc
          | false =>
            simp only [List.all_cons, hq, Bool.and_false]
        rw [hstep, hcong, ← ih, hfm]

/-- The specification-side selector: the first minimal-distance record,
returned only when it carries a truthy identifier. -/
def specPick (items : List Rec) (contract_type : String) (expiration : ℕ)
    (price : ℚ) : Option OptionPick :=
  match atmSpec items price with
  | none => none
  | some it =>
    if (extract_option_ticker it).truthy then
      some (mkPick it contract_type expiration)
    else none

lemma pickBest_acc (items : List Rec) (p : ℚ) :
    ∀ accQ : Option (ℚ × Rec),
    (∀ it ∈ items, ∀ f, extract_strike it = some f → ∃ q, f = PyFloat.fin q) →
    items.foldl (pickStep (.fin p)) (accQ.map fun c => (PyFloat.fin c.1, c.2)) =
      (bestFoldQ accQ (strikeCands items p)).map fun c => (PyFloat.fin c.1, c.2) := by
  induction items with
  | nil => intro accQ _; rfl
  | cons it rest ih =>
    intro accQ hfin
    have hrest : ∀ it2 ∈ rest, ∀ f, extract_strike it2 = some f →
        ∃ q, f = PyFloat.fin q :=
      fun it2 h2 => hfin it2 (List.mem_cons_of_mem it h2)
    rw [List.foldl_cons]
    cases hs : extract_strike it with
    | none =>
      have hcands : strikeCands (it :: rest) p = strikeCands rest p := by
        simp [strikeCands, List.filterMap_cons, hs]
      have hstep : pickStep (.fin p) (accQ.map fun c => (PyFloat.fin c.1, c.2)) it =
          accQ.map fun c => (PyFloat.fin c.1, c.2) := by
        simp [pickStep, hs]
      rw [hstep, hcands, ih accQ hrest]
    | some f =>
      obtain ⟨s, rfl⟩ := hfin it (List.mem_cons_self it rest) f hs
      have hcands : strikeCands (it :: rest) p =
          (|s - p|, it) :: strikeCands rest p := by
        simp [strikeCands, List.filterMap_cons, hs]
      rw [hcands]
      cases accQ with
      | none =>
        have hstep : pickStep (.fin p)
            ((none : Option (ℚ × Rec)).map fun c => (PyFloat.fin c.1, c.2)) it =
            (some ((|s - p|, it)) ).map fun c => (PyFloat.fin c.1, c.2) := by
          simp [pickStep, hs, PyFloat.sub, PyFloat.pabs]
        rw [hstep, ih (some (|s - p|, it)) hrest]
        rfl
      | some b0 =>
        by_cases hlt : |s - p| < b0.1
        · have hstep : pickStep (.fin p)
              ((some b0).map fun c => (PyFloat.fin c.1, c.2)) it =
              (some ((|s - p|, it))).map fun c => (PyFloat.fin c.1, c.2) := by
            simp [pickStep, hs, PyFloat.sub, PyFloat.pabs, PyFloat.lt, hlt]
          rw [hstep, ih (some (|s - p|, it)) hrest]
          have hq : bestFoldQ (some b0) ((|s - p|, it) :: strikeCands rest p) =
              bestFoldQ (some (|s - p|, it)) (strikeCands rest p) := by
            show bestFoldQ (if (|s - p|, it).1 < b0.1
              then some (|s - p|, it) else some b0) (strikeCands rest p) = _
            rw [if_pos hlt]
          rw [hq]
        · have hstep : pickStep (.fin p)
              ((some b0).map fun c => (PyFloat.fin c.1, c.2)) it =
              (some b0).map fun c => (PyFloat.fin c.1, c.2) := by
            simp [pickStep, hs, PyFloat.sub, PyFloat.pabs, PyFloat.lt, hlt]
          rw [hstep, ih (some b0) hrest]
          have hq : bestFoldQ (some b0) ((|s - p|, it) :: strikeCands rest p) =
              bestFoldQ (some b0) (strikeCands rest p) := by
            show bestFoldQ (if (|s - p|, it).1 < b0.1
              then some (|s - p|, it) else some b0) (strikeCands rest p) = _
            rw [if_neg hlt]
          rw [hq]

/-- The code's ATM selection coincides with the specification-side selector
whenever every extractable strike is finite. -/
lemma pick_atm_eq_specPick (items : List Rec) (ct : String) (e : ℕ) (p : ℚ)
    (hfin : ∀ it ∈ items, ∀ f, extract_strike it = some f →
      ∃ q, f = PyFloat.fin q) :
    pick_atm_option items ct e (.fin p) = specPick items ct e p := by
  have hbest : pickBest items (.fin p) =
      (firstMinRec (strikeCands items p)).map fun c => (PyFloat.fin c.1, c.2) := by
    have h := pickBest_acc items p none hfin
    simpa [pickBest, bestFoldQ_none] using h
  have hspec : atmSpec items p = (firstMinRec (strikeCands items p)).map Prod.snd := by
    rw [atmSpec, ← firstMinRec_eq_find?]
  cases hfm : firstMinRec (strikeCands items p) with
  | none =>
    simp [pick_atm_option, hbest, hfm, specPick, hspec]
  | some c =>
    simp [pick_atm_option, hbest, hfm, specPick, hspec]

lemma pickBest_fold_mem (items : List Rec) (price : PyFloat) :
    ∀ (acc : Option (PyFloat × Rec)) (b : PyFloat × Rec),
    items.foldl (pickStep price) acc = some b →
    acc = some b ∨ (b.2 ∈ items ∧ ∃ f, extract_strike b.2 = some f ∧
      b.1 = (f.sub price).pabs) := by
  induction items with
  | nil => intro acc b h; exact Or.inl h
  | cons it rest ih =>
    intro acc b h
    rw [List.foldl_cons] at h
    rcases ih (pickStep price acc it) b h with hacc | ⟨hmem, f, hf, hd⟩
    · cases hs : extract_strike it with
      | none =>
        simp only [pickStep, hs] at hacc
        exact Or.inl hacc
      | some f =>
        cases acc with
        | none =>
          simp only [pickStep, hs] at hacc
          obtain rfl : ((f.sub price).pabs, it) = b := Option.some.inj hacc
          exact Or.inr ⟨List.mem_cons_self it rest, f, hs, rfl⟩
        | some a0 =>
          simp only [pickStep, hs] at hacc
          by_cases hlt : ((f.sub price).pabs).lt a0.1 = true
          · rw [if_pos hlt] at hacc
            obtain rfl : ((f.sub price).pabs, it) = b := Option.some.inj hacc
            exact Or.inr ⟨List.mem_cons_self it rest, f, hs, rfl⟩
          · rw [if_neg hlt] at hacc
            exact Or.inl hacc
    · exact Or.inr ⟨List.mem_cons_of_mem it hmem, f, hf, hd⟩

lemma pickBest_filter (items : List Rec) (price : PyFloat) :
    ∀ acc : Option (PyFloat × Rec),
    items.foldl (pickStep price) acc =
      (items.filter fun it => (extract_strike it).isSome).foldl
        (pickStep price) acc := by
  induction items with
  | nil => intro acc; rfl
  | cons it rest ih =>
    intro acc
    rw [List.foldl_cons]
    cases hs : extract_strike it with
    | none =>
      have hstep : pickStep price acc it = acc := by simp [pickStep, hs]
      have hfilter : ((it :: rest).filter fun it2 => (extract_strike it2).isSome) =
          rest.filter fun it2 => (extract_strike it2).isSome := by
        simp [List.filter_cons, hs]
      rw [hstep, hfilter, ih acc]
    | some f =>
      have hfilter : ((it :: rest).filter fun it2 => (extract_strike it2).isSome) =
          it :: rest.filter fun it2 => (extract_strike it2).isSome := by
        simp [List.filter_cons, hs]
      rw [hfilter, List.foldl_cons, ih (pickStep price acc it)]

/-- A sample snapshot record with an identifier and a finite strike. -/
def sampleRec (t : String) (s : ℚ) : Rec :=
  [("ticker", JVal.vstr t), ("strike_price", JVal.vnum (.fin s))]

/-! ### Claims C4, C8, C10 about the ATM Selector -/

/-- C4 counterexample: a single record with an extractable strike but no
extractable identifier is the unique distance minimizer, yet the selection
returns none rather than that record. -/
theorem pick_atm_requires_identifier_cex :
    extract_strike [("strike_price", JVal.vnum (.fin 95))] = some (.fin 95) ∧
    pick_atm_option [[("strike_price", JVal.vnum (.fin 95))]] "call" 20240119
      (.fin 97) = none := ⟨rfl, rfl⟩

/-- C4 amended: with finite extractable strikes, ATM selection returns the
first record of minimal strike distance provided that record has a truthy
identifier (and none when no strike is extractable, or when the minimizer
lacks an identifier); the spec's two examples choose strike 95 out of
90/95/100/105 at price 97, and the earlier record on the 95/100 tie at
price 97.5. -/
theorem pick_atm_first_minimizer :
    (∀ (items : List Rec) (ct : String) (e : ℕ) (p : ℚ),
      (∀ it ∈ items, ∀ f, extract_strike it = some f → ∃ q, f = PyFloat.fin q) →
      pick_atm_option items ct e (.fin p) = specPick items ct e p) ∧
    (pick_atm_option [sampleRec "O:A" 90, sampleRec "O:B" 95, sampleRec "O:C" 100,
        sampleRec "O:D" 105] "call" 20240119 (.fin 97)).map OptionPick.strike =
      some (.fin 95) ∧
    (pick_atm_option [sampleRec "O:A" 95, sampleRec "O:B" 100] "call" 20240119
        (.fin (195/2))).map OptionPick.strike = some (.fin 95) := by
  refine ⟨pick_atm_eq_specPick, ?_, ?_⟩
  · have e1 : extract_strike (sampleRec "O:A" 90) = some (.fin 90) := rfl
    have e2 : extract_strike (sampleRec "O:B" 95) = some (.fin 95) := rfl
    have e3 : extract_strike (sampleRec "O:C" 100) = some (.fin 100) := rfl
    have e4 : extract_strike (sampleRec "O:D" 105) = some (.fin 105) := rfl
    have hb : pickBest [sampleRec "O:A" 90, sampleRec "O:B" 95,
        sampleRec "O:C" 100, sampleRec "O:D" 105] (.fin 97) =
        some (.fin |(95 : ℚ) - 97|, sampleRec "O:B" 95) := by
      simp only [pickBest, List.foldl, pickStep, e1, e2, e3, e4, PyFloat.sub,
        PyFloat.pabs, PyFloat.lt, decide_eq_true_eq]
      norm_num
    have ht : (extract_option_ticker (sampleRec "O:B" 95)).truthy = true := rfl
    rw [pick_atm_option, hb]
    simp only [ht, if_true]
    have hs : (mkPick (sampleRec "O:B" 95) "call" 20240119).strike = .fin 95 := rfl
    simp [hs]
  · have e1 : extract_strike (sampleRec "O:A" 95) = some (.fin 95) := rfl
    have e2 : extract_strike (sampleRec "O:B" 100) = some (.fin 100) := rfl
    have hb : pickBest [sampleRec "O:A" 95, sampleRec "O:B" 100]
        (.fin (195/2)) = some (.fin |(95 : ℚ) - 195/2|, sampleRec "O:A" 95) := by
      simp only [pickBest, List.foldl, pickStep, e1, e2, PyFloat.sub,
        PyFloat.pabs, PyFloat.lt, decide_eq_true_eq]
      norm_num
    have ht : (extract_option_ticker (sampleRec "O:A" 95)).truthy = true := rfl
    rw [pick_atm_option, hb]
    simp only [ht, if_true]
    have hs : (mkPick (sampleRec "O:A" 95) "call" 20240119).strike = .fin 95 := rfl
    simp [hs]

/-- C4 amended witness: the selector-specification equation evaluated on a
concrete one-record list. -/
theorem pick_atm_first_minimizer_witness :
    pick_atm_option [sampleRec "O:X" 100] "put" 20240119 (.fin 101) =
      specPick [sampleRec "O:X" 100] "put" 20240119 101 :=
  pick_atm_first_minimizer.1 [sampleRec "O:X" 100] "put" 20240119 101
    (by
      intro it hit f hf
      rw [List.mem_singleton] at hit
      subst hit
      rw [show extract_strike (sampleRec "O:X" 100) = some (.fin 100) from rfl] at hf
      exact ⟨100, (Option.some.inj hf).symm⟩)

/-- C8 counterexample: a record whose extracted strike is `-5` (finite but
negative) is eligible and in fact selected, refuting the requirement that
eligible strikes be non-negative. -/
theorem strike_eligibility_cex :
    extract_strike [("ticker", JVal.vstr "O:N"),
      ("strike_price", JVal.vnum (.fin (-5)))] = some (.fin (-5)) ∧
    (pick_atm_option [[("ticker", JVal.vstr "O:N"),
        ("strike_price", JVal.vnum (.fin (-5)))]] "call" 20240119
      (.fin 1)).map OptionPick.strike = some (.fin (-5)) ∧
    ¬ ((0 : ℚ) ≤ -5) := ⟨rfl, rfl, by norm_num⟩

/-- C8 amended: a record is eligible for ATM selection iff its strike
extraction succeeds — records failing extraction are silently dropped
(filtering them away changes nothing) and a selected strike always comes
from a successful extraction, never from a default such as zero; no
finiteness or sign check is applied. -/
theorem pick_skips_unextractable_strikes :
    (∀ (items : List Rec) (ct : String) (e : ℕ) (price : PyFloat),
      pick_atm_option items ct e price =
        pick_atm_option (items.filter fun it => (extract_strike it).isSome)
          ct e price) ∧
    (∀ (items : List Rec) (ct : String) (e : ℕ) (price : PyFloat)
        (pk : OptionPick),
      pick_atm_option items ct e price = some pk →
      ∃ it ∈ items, ∃ f, extract_strike it = some f ∧ pk.strike = f) := by
  constructor
  · intro items ct e price
    have hpb : pickBest items price =
        pickBest (items.filter fun it => (extract_strike it).isSome) price :=
      pickBest_filter items price none
    rw [pick_atm_option, pick_atm_option, hpb]
  · intro items ct e price pk h
    cases hb : pickBest items price with
    | none =>
      simp only [pick_atm_option, hb] at h
      exact Option.noConfusion h
    | some b =>
      simp only [pick_atm_option, hb] at h
      rcases pickBest_fold_mem items price none b hb with hacc | ⟨hmem, f, hf, _⟩
      · exact Option.noConfusion hacc
      · refine ⟨b.2, hmem, f, hf, ?_⟩
        by_cases htk : (extract_option_ticker b.2).truthy = true
        · rw [if_pos htk] at h
          rw [← Option.some.inj h]
          simp [mkPick, hf]
        · rw [if_neg htk] at h
          exact Option.noConfusion h

/-- C8 amended witness: the provenance clause evaluated on a concrete
selection. -/
theorem pick_skips_unextractable_strikes_witness :
    ∃ it ∈ [sampleRec "O:W" 50], ∃ f, extract_strike it = some f ∧
      (mkPick (sampleRec "O:W" 50) "call" 20240119).strike = f :=
  pick_skips_unextractable_strikes.2 [sampleRec "O:W" 50] "call" 20240119
    (.fin 49) (mkPick (sampleRec "O:W" 50) "call" 20240119) rfl

/-- C10: when the minimal-distance record has no truthy identifier, the
selection returns none for the whole list — it never falls back to another
record, even one with both an extractable strike and an identifier, as the
concrete two-record example (nearest record without identifier, farther
record fully usable) shows. -/
theorem no_fallback_on_missing_identifier :
    (∀ (items : List Rec) (ct : String) (e : ℕ) (p : ℚ) (it : Rec),
      (∀ it2 ∈ items, ∀ f, extract_strike it2 = some f →
        ∃ q, f = PyFloat.fin q) →
      atmSpec items p = some it → (extract_option_ticker it).truthy = false →
      pick_atm_option items ct e (.fin p) = none) ∧
    (pick_atm_option [[("strike_price", JVal.vnum (.fin 100))],
        sampleRec "O:B" 90] "call" 20240119 (.fin 99) = none ∧
      extract_strike (sampleRec "O:B" 90) = some (.fin 90) ∧
      (extract_option_ticker (sampleRec "O:B" 90)).truthy = true) := by
  refine ⟨?_, ?_, rfl, rfl⟩
  · intro items ct e p it hfin hspec htk
    rw [pick_atm_eq_specPick items ct e p hfin]
    simp [specPick, hspec, htk]
  · have e1 : extract_strike [("strike_price", JVal.vnum (.fin 100))] =
        some (.fin 100) := rfl
    have e2 : extract_strike (sampleRec "O:B" 90) = some (.fin 90) := rfl
    have hb : pickBest [[("strike_price", JVal.vnum (.fin 100))],
        sampleRec "O:B" 90] (.fin 99) =
        some (.fin |(100 : ℚ) - 99|, [("strike_price", JVal.vnum (.fin 100))]) := by
      simp only [pickBest, List.foldl, pickStep, e1, e2, PyFloat.sub,
        PyFloat.pabs, PyFloat.lt, decide_eq_true_eq]
      norm_num
    have ht : (extract_option_ticker
        [("strike_price", JVal.vnum (.fin 100))]).truthy = false := rfl
    rw [pick_atm_option, hb]
    simp [ht]

/-- C10 witness: the no-fallback clause evaluated on the concrete
two-record input. -/
theorem no_fallback_on_missing_identifier_witness :
    pick_atm_option [[("strike_price", JVal.vnum (.fin 100))],
      sampleRec "O:B" 90] "put" 20240119 (.fin 99) = none := by
  have e1 : extract_strike [("strike_price", JVal.vnum (.fin 100))] =
      some (.fin 100) := rfl
  have e2 : extract_strike (sampleRec "O:B" 90) = some (.fin 90) := rfl
  have hcands : strikeCands [[("strike_price", JVal.vnum (.fin 100))],
      sampleRec "O:B" 90] 99 =
      [(|(100 : ℚ) - 99|, [("strike_price", JVal.vnum (.fin 100))]),
       (|(90 : ℚ) - 99|, sampleRec "O:B" 90)] := rfl
  have hspec : atmSpec [[("strike_price", JVal.vnum (.fin 100))],
      sampleRec "O:B" 90] 99 = some [("strike_price", JVal.vnum (.fin 100))] := by
    have h1 : atmSpec [[("strike_price", JVal.vnum (.fin 100))],
        sampleRec "O:B" 90] 99 =
        (firstMinRec (strikeCands [[("strike_price", JVal.vnum (.fin 100))],
          sampleRec "O:B" 90] 99)).map Prod.snd := by
      rw [atmSpec, ← firstMinRec_eq_find?]
    rw [h1, hcands]
    simp only [firstMinRec]
    norm_num
  exact no_fallback_on_missing_identifier.1
    [[("strike_price", JVal.vnum (.fin 100))], sampleRec "O:B" 90]
    "put" 20240119 99 [("strike_price", JVal.vnum (.fin 100))]
    (by
      intro it2 hit2 f hf
      rcases List.mem_cons.mp hit2 with h | h
      · subst h
        rw [e1] at hf
        exact ⟨100, (Option.some.inj hf).symm⟩
      · rw [List.mem_singleton] at h
        subst h
        rw [e2] at hf
        exact ⟨90, (Option.some.inj hf).symm⟩)
    hspec rfl

/-! ### Claims C6, C7 about the History Store -/

lemma pySliceFrom_neg {α : Type} (l : List α) (lb : ℤ) (h : 1 ≤ lb) :
    pySliceFrom l (-lb) = l.drop (l.length - lb.toNat) := by
  rw [pySliceFrom, if_pos (by omega : -lb < 0), neg_neg]

lemma pairKey_le_trans (a b c : (ℕ × ℚ)) :
    (fun a b : ℕ × ℚ => decide (a.1 ≤ b.1)) a b = true →
    (fun a b : ℕ × ℚ => decide (a.1 ≤ b.1)) b c = true →
    (fun a b : ℕ × ℚ => decide (a.1 ≤ b.1)) a c = true := by
  simp only [decide_eq_true_eq]
  exact le_trans

lemma pairKey_le_total (a b : (ℕ × ℚ)) :
    ((fun a b : ℕ × ℚ => decide (a.1 ≤ b.1)) a b ||
     (fun a b : ℕ × ℚ => decide (a.1 ≤ b.1)) b a) = true := by
  simp only [Bool.or_eq_true, decide_eq_true_eq]
  exact le_total a.1 b.1

/-- C6 counterexample: with `lookback = 0` the Python slice `rows[-0:]` is
the whole list, so a one-row history loads one observation, not at most
zero. -/
theorem load_lookback_zero_cex :
    load_local_history (some [⟨"2024-01-02", some (1/2)⟩]) 0 =
      [(20240102, 1/2)] ∧
    ¬ (((load_local_history (some [⟨"2024-01-02", some (1/2)⟩]) 0).length : ℤ)
        ≤ 0) := by
  have hms : ([((20240102 : ℕ), (1/2 : ℚ))]).mergeSort
      (fun a b => decide (a.1 ≤ b.1)) = [(20240102, 1/2)] :=
    List.mergeSort_of_sorted (by simp)
  have h : load_local_history (some [⟨"2024-01-02", some (1/2)⟩]) 0 =
      [(20240102, 1/2)] := by
    rw [load_local_history]
    rw [show ([⟨"2024-01-02", some (1/2)⟩] : List RawRow).filterMap parseRow =
      [(20240102, (1/2 : ℚ))] from rfl]
    rw [hms]
    rfl
  refine ⟨h, ?_⟩
  rw [h]
  norm_num

/-- C6 amended: for every positive lookback, loading a missing file yields
the empty series, and otherwise the result is at most `lookback` of the
parseable persisted observations — namely the chronologically latest ones
(every dropped observation's date is at most every kept one's) — sorted
ascending by date. -/
theorem load_recent_sorted (lb : ℤ) (rows : List RawRow) (hlb : 1 ≤ lb) :
    load_local_history none lb = [] ∧
    ∃ dropped : List (ℕ × ℚ),
      (rows.filterMap parseRow).Perm
        (dropped ++ load_local_history (some rows) lb) ∧
      ((load_local_history (some rows) lb).length : ℤ) ≤ lb ∧
      List.Pairwise (fun a b => a.1 ≤ b.1) (load_local_history (some rows) lb) ∧
      (∀ x ∈ dropped, ∀ y ∈ load_local_history (some rows) lb, x.1 ≤ y.1) := by
  constructor
  · rfl
  · have hload : load_local_history (some rows) lb =
        ((rows.filterMap parseRow).mergeSort
          (fun a b => decide (a.1 ≤ b.1))).drop
          (((rows.filterMap parseRow).mergeSort
            (fun a b => decide (a.1 ≤ b.1))).length - lb.toNat) := by
      rw [load_local_history]
      exact pySliceFrom_neg _ lb hlb
    set sorted := (rows.filterMap parseRow).mergeSort
      (fun a b => decide (a.1 ≤ b.1)) with hsorted
    set k := sorted.length - lb.toNat with hk
    refine ⟨sorted.take k, ?_, ?_, ?_, ?_⟩
    · have hperm : (rows.filterMap parseRow).Perm sorted :=
        (List.mergeSort_perm (rows.filterMap parseRow) _).symm
      rw [hload, List.take_append_drop k sorted]
      exact hperm
    · rw [hload]
      have h1 : (sorted.drop k).length = sorted.length - k := List.length_drop k sorted
      have h2 : sorted.length - k ≤ lb.toNat := by omega
      have h3 : (lb.toNat : ℤ) = lb := Int.toNat_of_nonneg (by omega)
      omega
    · have hpw : List.Pairwise
          (fun a b : ℕ × ℚ => (fun a b : ℕ × ℚ => decide (a.1 ≤ b.1)) a b = true)
          sorted :=
        List.sorted_mergeSort pairKey_le_trans pairKey_le_total
          (rows.filterMap parseRow)
      have hpw' : List.Pairwise (fun a b : ℕ × ℚ => a.1 ≤ b.1) sorted :=
        hpw.imp fun h => of_decide_eq_true h
      rw [hload]
      exact hpw'.sublist (List.drop_sublist k sorted)
    · intro x hx y hy
      rw [hload] at hy
      have hpw : List.Pairwise
          (fun a b : ℕ × ℚ => (fun a b : ℕ × ℚ => decide (a.1 ≤ b.1)) a b = true)
          sorted :=
        List.sorted_mergeSort pairKey_le_trans pairKey_le_total
          (rows.filterMap parseRow)
      have hpw' : List.Pairwise (fun a b : ℕ × ℚ => a.1 ≤ b.1) sorted :=
        hpw.imp fun h => of_decide_eq_true h
      have hsplit : sorted = sorted.take k ++ sorted.drop k :=
        (List.take_append_drop k sorted).symm
      rw [hsplit] at hpw'
      exact (List.pairwise_append.mp hpw').2.2 x hx y hy

/-- C6 amended witness: loading two unsorted rows with lookback 1 keeps the
chronologically latest observation. -/
theorem load_recent_sorted_witness :
    load_local_history none 1 = [] ∧
    ∃ dropped : List (ℕ × ℚ),
      (([⟨"2024-01-03", some 1⟩, ⟨"2024-01-02", some 2⟩] :
          List RawRow).filterMap parseRow).Perm
        (dropped ++ load_local_history
          (some [⟨"2024-01-03", some 1⟩, ⟨"2024-01-02", some 2⟩]) 1) ∧
      ((load_local_history
          (some [⟨"2024-01-03", some 1⟩, ⟨"2024-01-02", some 2⟩]) 1).length : ℤ)
        ≤ 1 ∧
      List.Pairwise (fun a b => a.1 ≤ b.1)
        (load_local_history
          (some [⟨"2024-01-03", some 1⟩, ⟨"2024-01-02", some 2⟩]) 1) ∧
      (∀ x ∈ dropped, ∀ y ∈ load_local_history
          (some [⟨"2024-01-03", some 1⟩, ⟨"2024-01-02", some 2⟩]) 1, x.1 ≤ y.1) :=
  load_recent_sorted 1 [⟨"2024-01-03", some 1⟩, ⟨"2024-01-02", some 2⟩]
    (by norm_num)

/-- Distinctness of dictionary keys. -/
def keyNodup (m : List (String × ℚ)) : Prop := (m.map Prod.fst).Nodup

lemma any_key_iff (m : List (String × ℚ)) (k : String) :
    m.any (fun p => decide (p.1 = k)) = true ↔ k ∈ m.map Prod.fst := by
  simp only [List.any_eq_true, decide_eq_true_eq, List.mem_map]

lemma dictSet_map_fst_of_mem (m : List (String × ℚ)) (k : String) (v : ℚ)
    (h : m.any (fun p => decide (p.1 = k)) = true) :
    (dictSet m k v).map Prod.fst = m.map Prod.fst := by
  rw [dictSet, if_pos h, List.map_map]
  apply List.map_congr_left
  intro p _
  by_cases hp : p.1 = k
  · simp [hp]
  · simp [hp]

lemma dictSet_of_not_mem (m : List (String × ℚ)) (k : String) (v : ℚ)
    (h : ¬ m.any (fun p => decide (p.1 = k)) = true) :
    dictSet m k v = m ++ [(k, v)] := by
  rw [dictSet, if_neg h]

lemma keyNodup_dictSet (m : List (String × ℚ)) (k : String) (v : ℚ)
    (h : keyNodup m) : keyNodup (dictSet m k v) := by
  by_cases hmem : m.any (fun p => decide (p.1 = k)) = true
  · rw [keyNodup, dictSet_map_fst_of_mem m k v hmem]
    exact h
  · rw [keyNodup, dictSet_of_not_mem m k v hmem, List.map_append]
    rw [List.nodup_append]
    refine ⟨h, List.nodup_singleton k, ?_⟩
    intro a ha
    simp only [List.map_cons, List.map_nil, List.mem_singleton]
    intro hak
    subst hak
    exact hmem ((any_key_iff m a).mpr ha)

lemma mem_dictSet_self (m : List (String × ℚ)) (k : String) (v : ℚ) :
    (k, v) ∈ dictSet m k v := by
  by_cases hmem : m.any (fun p => decide (p.1 = k)) = true
  · rw [dictSet, if_pos hmem]
    rw [List.any_eq_true] at hmem
    obtain ⟨p, hp, hpk⟩ := hmem
    rw [decide_eq_true_eq] at hpk
    refine List.mem_map.mpr ⟨p, hp, ?_⟩
    simp [hpk]
  · rw [dictSet_of_not_mem m k v hmem]
    exact List.mem_append_right m (List.mem_singleton.mpr rfl)

lemma key_unique (k : String) (v : ℚ) (p : String × ℚ) :
    ∀ m : List (String × ℚ), keyNodup m → (k, v) ∈ m → p ∈ m → p.1 = k →
      p = (k, v) := by
  intro m
  induction m with
  | nil => intro _ hv _ _; exact absurd hv (List.not_mem_nil _)
  | cons a as ih =>
    intro hnd hv hp hpk
    rw [keyNodup, List.map_cons, List.nodup_cons] at hnd
    rcases List.mem_cons.mp hv with hv1 | hv1
    · rcases List.mem_cons.mp hp with hp1 | hp1
      · rw [hp1, ← hv1]
      · exfalso
        apply hnd.1
        rw [← hv1]
        have : p.1 ∈ as.map Prod.fst := List.mem_map.mpr ⟨p, hp1, rfl⟩
        rw [hpk] at this
        exact this
    · rcases List.mem_cons.mp hp with hp1 | hp1
      · exfalso
        apply hnd.1
        have : (k, v).1 ∈ as.map Prod.fst := List.mem_map.mpr ⟨(k, v), hv1, rfl⟩
        rw [← hp1, hpk]
        exact this
      · exact ih hnd.2 hv1 hp1 hpk

lemma dictSet_of_mem (m : List (String × ℚ)) (k : String) (v : ℚ)
    (hnd : keyNodup m) (hv : (k, v) ∈ m) : dictSet m k v = m := by
  have hany : m.any (fun p => decide (p.1 = k)) = true :=
    (any_key_iff m k).mpr (List.mem_map.mpr ⟨(k, v), hv, rfl⟩)
  rw [dictSet, if_pos hany]
  have hid : m.map (fun p => if p.1 = k then (k, v) else p) = m.map id := by
    apply List.map_congr_left
    intro p hp
    by_cases hpk : p.1 = k
    · rw [if_pos hpk, key_unique k v p m hnd hv hp hpk]
      rfl
    · rw [if_neg hpk]
      rfl
  rw [hid, List.map_id]

lemma readStep_none (m : List (String × ℚ)) (r : RawRow) (h : r.iv = none) :
    readStep m r = m := by
  simp [readStep, h]

lemma readStep_some (m : List (String × ℚ)) (r : RawRow) (v : ℚ)
    (h : r.iv = some v) : readStep m r = dictSet m r.date v := by
  simp [readStep, h]

lemma foldl_readStep_keyNodup (rows : List RawRow) :
    ∀ acc : List (String × ℚ), keyNodup acc →
      keyNodup (rows.foldl readStep acc) := by
  induction rows with
  | nil => intro acc h; exact h
  | cons r rest ih =>
    intro acc h
    rw [List.foldl_cons]
    apply ih
    cases hr : r.iv with
    | none => rw [readStep_none _ _ hr]; exact h
    | some v => rw [readStep_some _ _ _ hr]; exact keyNodup_dictSet _ _ _ h

lemma readExisting_keyNodup (rows : List RawRow) :
    keyNodup (readExisting rows) :=
  foldl_readStep_keyNodup rows [] (by simp [keyNodup])

lemma foldl_readStep_pairs (m : List (String × ℚ)) :
    ∀ acc : List (String × ℚ),
    (∀ p ∈ m, p.1 ∉ acc.map Prod.fst) → keyNodup m →
    (m.map toRow).foldl readStep acc = acc ++ m := by
  induction m with
  | nil => intro acc _ _; simp
  | cons p ps ih =>
    intro acc hdisj hnd
    rw [List.map_cons, List.foldl_cons]
    have hany : ¬ acc.any (fun q => decide (q.1 = p.1)) = true := by
      intro hc
      exact hdisj p (List.mem_cons_self _ _) ((any_key_iff acc p.1).mp hc)
    have hstep : readStep acc (toRow p) = acc ++ [p] := by
      rw [readStep_some acc (toRow p) p.2 rfl]
      rw [show (toRow p).date = p.1 from rfl]
      rw [dictSet_of_not_mem acc p.1 p.2 hany]
    rw [hstep]
    rw [keyNodup, List.map_cons, List.nodup_cons] at hnd
    rw [ih (acc ++ [p]) ?_ hnd.2]
    · rw [List.append_assoc, List.singleton_append]
    · intro q hq
      rw [List.map_append]
      intro hc
      rcases List.mem_append.mp hc with hc1 | hc1
      · exact hdisj q (List.mem_cons_of_mem _ hq) hc1
      · apply hnd.1
        have hq1 : q.1 = p.1 := by simpa using hc1
        rw [← hq1]
        exact List.mem_map.mpr ⟨q, hq, rfl⟩

lemma readExisting_map_toRow (m : List (String × ℚ)) (hnd : keyNodup m) :
    readExisting (m.map toRow) = m := by
  rw [readExisting, foldl_readStep_pairs m [] (by simp) hnd,
    List.nil_append]

lemma strKey_le_trans (a b c : (String × ℚ)) :
    (fun a b : String × ℚ => decide (a.1 ≤ b.1)) a b = true →
    (fun a b : String × ℚ => decide (a.1 ≤ b.1)) b c = true →
    (fun a b : String × ℚ => decide (a.1 ≤ b.1)) a c = true := by
  simp only [decide_eq_true_eq]
  exact le_trans

lemma strKey_le_total (a b : (String × ℚ)) :
    ((fun a b : String × ℚ => decide (a.1 ≤ b.1)) a b ||
     (fun a b : String × ℚ => decide (a.1 ≤ b.1)) b a) = true := by
  simp only [Bool.or_eq_true, decide_eq_true_eq]
  exact le_total a.1 b.1

lemma keyNodup_mergeSort (m : List (String × ℚ)) (h : keyNodup m) :
    keyNodup (m.mergeSort (fun a b => decide (a.1 ≤ b.1))) := by
  rw [keyNodup]
  have hperm : ((m.mergeSort (fun a b => decide (a.1 ≤ b.1))).map
      Prod.fst).Perm (m.map Prod.fst) :=
    (List.mergeSort_perm m _).map _
  exact hperm.nodup_iff.mpr h

lemma find?_map_toRow (d : String) (v : ℚ) :
    ∀ m : List (String × ℚ), keyNodup m → (d, v) ∈ m →
    (m.map toRow).find? (fun r => decide (r.date = d)) = some ⟨d, some v⟩ := by
  intro m
  induction m with
  | nil => intro _ hv; exact absurd hv (List.not_mem_nil _)
  | cons p ps ih =>
    intro hnd hv
    rw [List.map_cons]
    by_cases hpd : p.1 = d
    · have hp : p = (d, v) :=
        key_unique d v p (p :: ps) hnd hv (List.mem_cons_self _ _) hpd
      subst hp
      apply List.find?_cons_of_pos
      simp [toRow]
    · have hneg : ¬ ((fun (r : RawRow) => decide (r.date = d)) (toRow p) = true) := by
        simp [toRow, hpd]
      rw [@List.find?_cons_of_neg RawRow (fun r => decide (r.date = d))
        (toRow p) (List.map toRow ps) hneg]
      rw [keyNodup, List.map_cons, List.nodup_cons] at hnd
      apply ih hnd.2
      rcases List.mem_cons.mp hv with hv1 | hv1
      · exact absurd (by rw [← hv1]) hpd
      · exact hv1

lemma dictSet_length_of_mem (m : List (String × ℚ)) (k : String) (v : ℚ)
    (h : m.any (fun p => decide (p.1 = k)) = true) :
    (dictSet m k v).length = m.length := by
  rw [dictSet, if_pos h, List.length_map]

/-- C7: the history append is an upsert keyed by date — appending the same
`(date, iv)` twice yields a file identical to appending it once, and
appending any value for an already-present date keeps the series length
and stores the new value under that date. -/
theorem append_upsert_by_date (file : HistoryFile) (d : String) (iv iv' : ℚ) :
    append_local_history (some (append_local_history file d iv)) d iv =
      append_local_history file d iv ∧
    (d ∈ (readExisting (file.getD [])).map Prod.fst →
      (append_local_history file d iv').length =
        (readExisting (file.getD [])).length ∧
      (append_local_history file d iv').find? (fun r => decide (r.date = d)) =
        some ⟨d, some iv'⟩) := by
  have hndE : keyNodup (readExisting (file.getD [])) := readExisting_keyNodup _
  constructor
  · set E := readExisting (file.getD []) with hE
    set M := dictSet E d iv with hM
    set S := M.mergeSort (fun a b => decide (a.1 ≤ b.1)) with hS
    have hndM : keyNodup M := keyNodup_dictSet _ _ _ hndE
    have hndS : keyNodup S := keyNodup_mergeSort _ hndM
    have hmemS : (d, iv) ∈ S :=
      (List.mergeSort_perm M _).mem_iff.mpr (mem_dictSet_self E d iv)
    have hsorted : List.Pairwise
        (fun a b : String × ℚ =>
          (fun a b : String × ℚ => decide (a.1 ≤ b.1)) a b = true) S :=
      List.sorted_mergeSort strKey_le_trans strKey_le_total M
    show append_local_history (some (S.map toRow)) d iv = S.map toRow
    simp only [append_local_history, Option.getD_some]
    rw [readExisting_map_toRow S hndS]
    rw [dictSet_of_mem S d iv hndS hmemS]
    rw [List.mergeSort_of_sorted hsorted]
  · intro hdmem
    have hndM' : keyNodup (dictSet (readExisting (file.getD [])) d iv') :=
      keyNodup_dictSet _ _ _ hndE
    have hany : (readExisting (file.getD [])).any
        (fun p => decide (p.1 = d)) = true := (any_key_iff _ d).mpr hdmem
    constructor
    · simp only [append_local_history]
      rw [List.length_map, (List.mergeSort_perm _ _).length_eq]
      exact dictSet_length_of_mem _ d iv' hany
    · simp only [append_local_history]
      apply find?_map_toRow
      · exact keyNodup_mergeSort _ hndM'
      · exact (List.mergeSort_perm _ _).mem_iff.mpr (mem_dictSet_self _ d iv')

/-- C7 witness: upserting on a concrete one-row file — idempotence,
constant length and the replaced value. -/
theorem append_upsert_by_date_witness :
    (append_local_history
        (some (append_local_history (some [⟨"2024-01-02", some 1⟩])
          "2024-01-02" 2)) "2024-01-02" 2 =
      append_local_history (some [⟨"2024-01-02", some 1⟩]) "2024-01-02" 2) ∧
    ((append_local_history (some [⟨"2024-01-02", some 1⟩])
        "2024-01-02" 3).length =
      (readExisting [⟨"2024-01-02", some 1⟩]).length ∧
     (append_local_history (some [⟨"2024-01-02", some 1⟩])
        "2024-01-02" 3).find? (fun r => decide (r.date = "2024-01-02")) =
      some ⟨"2024-01-02", some 3⟩) :=
  have h := append_upsert_by_date (some [⟨"2024-01-02", some 1⟩])
    "2024-01-02" 2 3
  ⟨h.1, h.2 (by decide)⟩

/-! ### Claim C9 about Field Extraction -/

lemma ivScan_finite (vs : List JVal) :
    ∀ f : PyFloat, ivScan vs = some f → f.isFinite = true := by
  induction vs with
  | nil => intro f h; exact Option.noConfusion h
  | cons v vs ih =>
    intro f h
    rw [ivScan] at h
    by_cases hn : v.isNull = true
    · rw [if_pos hn] at h
      exact ih f h
    · rw [if_neg hn] at h
      cases hp : pyFloat? v with
      | none =>
        simp only [hp] at h
        exact ih f h
      | some g =>
        simp only [hp] at h
        by_cases hf : g.isFinite = true
        · rw [if_pos hf] at h
          obtain rfl : g = f := Option.some.inj h
          exact hf
        · rw [if_neg hf] at h
          exact ih f h

/-- C9 counterexample: the first strike candidate (`strike_price`) holds a
truthy object that fails `float` conversion, so strike extraction returns
absent even though the next candidate (`strike`) exists and converts —
extraction does not return the first candidate that exists and converts. -/
theorem strike_no_fallthrough_cex :
    extract_strike [("strike_price", JVal.vobj [("x", JVal.vnum (.fin 1))]),
      ("strike", JVal.vnum (.fin 100))] = none ∧
    recGet [("strike_price", JVal.vobj [("x", JVal.vnum (.fin 1))]),
      ("strike", JVal.vnum (.fin 100))] "strike" = JVal.vnum (.fin 100) ∧
    pyFloat? (JVal.vnum (.fin 100)) = some (.fin 100) := ⟨rfl, rfl, rfl⟩

/-- C9 amended: IV extraction scans its candidates in order, skipping
candidates that are `None`, fail conversion, or are non-finite, so every
IV it returns is finite; strike (and expiration) extraction instead commit
to the first truthy candidate and return absent if that one candidate
fails conversion, without trying later candidates; no extraction raises. -/
theorem extraction_skip_semantics :
    (∀ (item : Rec) (f : PyFloat), extract_iv item = some f →
      f.isFinite = true) ∧
    extract_iv [("implied_volatility", JVal.vobj [("x", JVal.vnum (.fin 1))]),
      ("iv", JVal.vnum (.fin (1/2)))] = some (.fin (1/2)) ∧
    extract_iv [("implied_volatility", JVal.vnum .inf),
      ("iv", JVal.vnum (.fin (1/2)))] = some (.fin (1/2)) ∧
    extract_strike [("strike_price", JVal.vobj [("x", JVal.vnum (.fin 1))]),
      ("strike", JVal.vnum (.fin 100))] = none ∧
    extract_expiration [("expiration_date", JVal.vstr "not-a-date"),
      ("expires_at", JVal.vstr "2024-01-19")] = none :=
  ⟨fun item f h => ivScan_finite (ivCandidates item) f h, rfl, rfl, rfl, rfl⟩

/-- C9 witness: the finiteness clause evaluated on a concrete record. -/
theorem extraction_skip_semantics_witness :
    PyFloat.isFinite (.fin (3/10)) = true :=
  extraction_skip_semantics.1 [("iv", JVal.vnum (.fin (3/10)))] (.fin (3/10)) rfl
